import Mathlib

set_option maxRecDepth 8000

/-!
Shallow embedding of the tools_rag hybrid retrieval engine
(src/tools_rag/hybrid_tools_rag.py, src/tools_rag/store.py,
src/tools_rag/skills.py, src/tools_rag/config.py).

Modelling conventions:
* Python floats are modelled as rationals.
* A tool dictionary `{name, desc, params, server}` is modelled by `Tool`;
  the opaque `params` blob is kept as an uninterpreted string; the optional
  `server` key is an `Option String` (absent key = `none`).
* Python dictionaries keyed by tool name are association lists; tool names
  (ChromaDB ids) are unique in the store, so first-match lookup agrees with
  dictionary lookup.
* `sorted(..., reverse=True)` is modelled by a stable insertion sort.
* The embedding model, the cosine-distance computation of the ChromaDB
  backend, and the raw BM25 scorer of rank_bm25 are external collaborators;
  they enter the model as function parameters (`embed`, `dist`,
  `bm25Scores`).
-/

/-- A tool record as stored in the catalog: the decoded `tool_json`. -/
structure Tool where
  name : String
  desc : String
  params : String
  server : Option String
  deriving DecidableEq, Repr

/-- A tool as returned to callers: the `server` key has been popped. -/
structure CleanTool where
  name : String
  desc : String
  params : String
  deriving DecidableEq, Repr

/-- Popping the `server` key from a tool dictionary. -/
def Tool.strip (t : Tool) : CleanTool :=
  ⟨t.name, t.desc, t.params⟩

/-- Embedding vectors (lists of rationals standing for float lists). -/
abbrev Vec := List ℚ

/-- One ChromaDB collection entry: id, document text, embedding, metadata
(the decoded `tool_json`). -/
structure Entry where
  id : String
  doc : String
  emb : Vec
  meta : Tool
  deriving DecidableEq, Repr

/- ### Generic helpers mirroring Python built-ins -/

/-- Insert `x` into a list before the first element `y` with `le x y`;
auxiliary of the stable sort. -/
def insertBy (le : α → α → Bool) (x : α) : List α → List α
  | [] => [x]
  | y :: ys => if le x y then x :: y :: ys else y :: insertBy le x ys

/-- Stable insertion sort; with `le x y = (key y ≤ key x)` this models
Python `sorted(..., key=key, reverse=True)`, with `le x y = (x ≤ y)` it
models ascending `sorted`. -/
def pySorted (le : α → α → Bool) : List α → List α
  | [] => []
  | x :: xs => insertBy le x (pySorted le xs)

/-- Python `max(list)` on a list of scores; `0` on the empty list (Python
would raise there; the code only applies it to non-empty lists). -/
def pyMax : List ℚ → ℚ
  | [] => 0
  | x :: xs => xs.foldl max x

/-- Auxiliary of `pySplit`: accumulates the current word (reversed). -/
def splitWsAux : List Char → List Char → List (List Char)
  | [], acc => if acc.isEmpty then [] else [acc.reverse]
  | c :: cs, acc =>
    if c.isWhitespace then
      if acc.isEmpty then splitWsAux cs [] else acc.reverse :: splitWsAux cs []
    else
      splitWsAux cs (c :: acc)

/-- Python `str.split()`: split on whitespace runs, dropping empty tokens. -/
def pySplit (s : String) : List String :=
  (splitWsAux s.data []).map String.mk

/-- Add a string to a list acting as an insertion-ordered set
(Python `set.add`). -/
def insertNew (l : List String) (s : String) : List String :=
  if s ∈ l then l else l ++ [s]

/-- Python `sorted` on strings (ascending lexicographic order). -/
def sortStrings (l : List String) : List String :=
  pySorted (fun a b => decide (a ≤ b)) l

/- ### ChromaStore (src/tools_rag/store.py)

The store state is the list of collection entries in insertion order.
`ChromaStore.add` behaves as an upsert keyed by id: the repository's own
documentation (hybrid_tools_rag.py lines 46-49) and test
(test_add_tool_upsert) fix replace semantics for duplicate names. -/

/-- Upsert a single entry: overwrite the entry with the same id if present,
append otherwise. -/
def upsertOne (st : List Entry) (e : Entry) : List Entry :=
  if st.any (fun x => x.id == e.id) then
    st.map (fun x => if x.id == e.id then e else x)
  else
    st ++ [e]

/-- Model of `ChromaStore.add`: upsert a batch of entries in order. -/
def storeAdd (st : List Entry) (es : List Entry) : List Entry :=
  es.foldl upsertOne st

/-- Model of `ChromaStore.delete`: remove entries whose id occurs in `ids`;
unknown ids are ignored. -/
def storeDelete (st : List Entry) (ids : List String) : List Entry :=
  st.filter (fun e => !(ids.contains e.id))

/-- The `ids` component of `ChromaStore.get_all`. -/
def storeIds (st : List Entry) : List String :=
  st.map (fun e => e.id)

/-- The `documents` component of `ChromaStore.get_all`. -/
def storeDocs (st : List Entry) : List String :=
  st.map (fun e => e.doc)

/-- Model of `ChromaStore.search_with_scores`: the k nearest entries by cosine
distance `dist`, as `(id, 1 - distance, metadata)` triples ordered by
descending similarity; returns fewer than `k` when the store is smaller. -/
def searchWithScores (dist : Vec → Vec → ℚ) (st : List Entry) (qv : Vec) (k : ℕ) :
    List (String × ℚ × Tool) :=
  (pySorted (fun a b => decide (b.2.1 ≤ a.2.1))
    (st.map (fun e => (e.id, 1 - dist qv e.emb, e.meta)))).take k

/- ### Configuration (src/tools_rag/config.py) -/

/-- Model of `ToolsRAGConfig`: retrieval parameters (pydantic bounds on `alpha`,
`top_k`, `threshold` are enforced at construction time and appear as
hypotheses where a claim needs them). -/
structure ToolsRAGConfig where
  embedModel : String
  alpha : ℚ
  topK : ℕ
  threshold : ℚ
  filterTools : Bool
  deriving DecidableEq, Repr

/- ### ToolsRAG state and mutations (src/tools_rag/hybrid_tools_rag.py) -/

/-- The mutable state of a `ToolsRAG` instance: the ChromaDB collection and
the BM25 index (`none` models `self.bm25 = None`; `some corpus` models a
`BM25Okapi` built over the tokenized corpus). -/
structure RAGState where
  store : List Entry
  bm25 : Option (List (List String))
  deriving DecidableEq, Repr

/-- Model of `ToolsRAG._build_text`: name + desc only. -/
def buildText (t : Tool) : String :=
  t.name ++ " " ++ t.desc

/-- The collection entry produced for one tool: id is the tool name, the
document is its text representation, the embedding is computed from the
document, the metadata is the serialized tool itself. -/
def mkEntry (embed : String → Vec) (t : Tool) : Entry :=
  ⟨t.name, buildText t, embed (buildText t), t⟩

/-- Model of `ToolsRAG._rebuild_bm25`: rebuild the sparse index from the current
store documents; `None` when the store is empty. -/
def rebuildBM25 (store : List Entry) : Option (List (List String)) :=
  let docs := storeDocs store
  if docs.isEmpty then none else some (docs.map pySplit)

/-- Model of `ToolsRAG.populate_tools`. -/
def populateTools (embed : String → Vec) (s : RAGState) (toolsList : List Tool) :
    RAGState :=
  let store := storeAdd s.store (toolsList.map (mkEntry embed))
  { store := store, bm25 := rebuildBM25 store }

/-- Model of `ToolsRAG.add_tools`. -/
def addTools (embed : String → Vec) (s : RAGState) (newTools : List Tool) :
    RAGState :=
  let store := storeAdd s.store (newTools.map (mkEntry embed))
  { store := store, bm25 := rebuildBM25 store }

/-- Model of `ToolsRAG.remove_tools`. -/
def removeTools (s : RAGState) (toolNames : List String) : RAGState :=
  let store := storeDelete s.store toolNames
  { store := store, bm25 := rebuildBM25 store }

/-- Number of documents in the sparse corpus (`0` when `bm25` is `None`). -/
def corpusSize : Option (List (List String)) → ℕ
  | none => 0
  | some c => c.length

/- ### Sparse scoring (`ToolsRAG._retrieve_sparse_scores`) -/

/-- The raw BM25 scores the code computes: empty when `bm25` is `None`,
otherwise the scores of the external `BM25Okapi.get_scores` (parameter
`bm25Scores`) on the tokenized query. -/
def rawSparse (bm25Scores : List (List String) → List String → List ℚ)
    (s : RAGState) (query : String) : List ℚ :=
  match s.bm25 with
  | none => []
  | some corpus => bm25Scores corpus (pySplit query)

/-- The normalization denominator: the maximum raw score when positive,
otherwise `1`. -/
def normDenom (raw : List ℚ) : ℚ :=
  if 0 < pyMax raw then pyMax raw else 1

/-- Model of `ToolsRAG._retrieve_sparse_scores`: the empty mapping when `bm25` is
`None`, otherwise raw scores zipped with the store ids and divided by the
normalization denominator. -/
def retrieveSparseScores (bm25Scores : List (List String) → List String → List ℚ)
    (s : RAGState) (query : String) : List (String × ℚ) :=
  match s.bm25 with
  | none => []
  | some corpus =>
    let toolNames := storeIds s.store
    let raw := bm25Scores corpus (pySplit query)
    let maxScore := if 0 < pyMax raw then pyMax raw else 1
    (toolNames.zip raw).map (fun p => (p.1, p.2 / maxScore))

/- ### Fusion pipeline (`ToolsRAG.retrieve_hybrid`) -/

/-- Auxiliary of `denseRankScores`: rank scores starting at index `i`. -/
def rankScoresFrom (k : ℕ) : ℕ → List String → List (String × ℚ)
  | _, [] => []
  | i, t :: rest => (t, 1 - (i : ℚ) / (k : ℚ)) :: rankScoresFrom k (i + 1) rest

/-- The rank-decay dictionary `{t: 1.0 - i / k for i, t in enumerate(dense_ids)}`. -/
def denseRankScores (denseIds : List String) (k : ℕ) : List (String × ℚ) :=
  rankScoresFrom k 0 denseIds

/-- The candidate union `set(dense_ids + sparse_ids)`, rendered
deterministically as the dense ids followed by the sparse-only ids
(both inputs are duplicate-free in every reachable state). -/
def unionIds (denseIds sparseIds : List String) : List String :=
  denseIds ++ sparseIds.filter (fun n => decide (n ∉ denseIds))

/-- The fused scores `alpha * dense + (1 - alpha) * sparse` over a list of
candidate ids, components missing from a ranking defaulting to `0`. -/
def fusedScores (alpha : ℚ) (dScores sScores : List (String × ℚ))
    (ids : List String) : List (String × ℚ) :=
  ids.map (fun t =>
    (t, alpha * ((dScores.lookup t).getD 0) + (1 - alpha) * ((sScores.lookup t).getD 0)))

/-- Stable descending sort of a scored id list
(`sorted(d, key=d.get, reverse=True)`). -/
def sortByScoreDesc (l : List (String × ℚ)) : List (String × ℚ) :=
  pySorted (fun a b => decide (b.2 ≤ a.2)) l

/-- Model of `sorted(d, key=d.get, reverse=True)[:k]`: ids of the top-k scores. -/
def topIds (scored : List (String × ℚ)) (k : ℕ) : List String :=
  ((sortByScoreDesc scored).map Prod.fst).take k

/-- One iteration of the threshold filter loop of `retrieve_hybrid`
(lines 157-165): keep a candidate only when its recorded dense similarity
(default `0.0`) reaches the threshold and it has recorded metadata; pop the
`server` field, collecting truthy servers into the server set. -/
def filterStep (simL : List (String × ℚ)) (metaL : List (String × Tool))
    (threshold : ℚ) (acc : List CleanTool × List String) (name : String) :
    List CleanTool × List String :=
  let sim := (simL.lookup name).getD 0
  if threshold ≤ sim then
    match metaL.lookup name with
    | some tool =>
      let servers :=
        match tool.server with
        | some srv => if srv = "" then acc.2 else insertNew acc.2 srv
        | none => acc.2
      (acc.1 ++ [tool.strip], servers)
    | none => acc
  else acc

/-- The threshold filter loop of `retrieve_hybrid` over the final candidate
list, starting from empty accumulators. -/
def filterLoop (simL : List (String × ℚ)) (metaL : List (String × Tool))
    (threshold : ℚ) (final : List String) : List CleanTool × List String :=
  final.foldl (filterStep simL metaL threshold) ([], [])

/-- Model of `ToolsRAG.retrieve_hybrid`. The result is `none` for the sentinel
`(None, None)` (filtering disabled) and `some (tools, servers)` otherwise,
mirroring the tuple the Python function returns. -/
def retrieveHybrid (embed : String → Vec) (dist : Vec → Vec → ℚ)
    (bm25Scores : List (List String) → List String → List ℚ)
    (cfg : ToolsRAGConfig) (s : RAGState) (query : String)
    (kArg : Option ℕ) (alphaArg : Option ℚ) (thresholdArg : Option ℚ) :
    Option (List CleanTool × List String) :=
  if !cfg.filterTools then none
  else
    let k := kArg.getD cfg.topK
    let alpha := alphaArg.getD cfg.alpha
    let threshold := thresholdArg.getD cfg.threshold
    let qv := embed query
    let dres := searchWithScores dist s.store qv k
    let denseIds := dres.map (fun r => r.1)
    let dScores := denseRankScores denseIds k
    let simL := dres.map (fun r => (r.1, r.2.1))
    let metaL := dres.map (fun r => (r.1, r.2.2))
    let sScores := retrieveSparseScores bm25Scores s query
    let sparseIds := topIds sScores k
    let fused := fusedScores alpha dScores sScores (unionIds denseIds sparseIds)
    let final := topIds fused k
    let res := filterLoop simL metaL threshold final
    some (res.1, sortStrings res.2)

/- ### State-threaded variant for the frame property

The store and index accesses performed by `retrieve_hybrid` are reads; the
state-threaded rendering makes the sequence of accesses explicit so that
the frame property (the call leaves the shared state untouched) can be
stated about the threaded state. -/

/-- Model of `ChromaStore.search_with_scores` as a state-passing read. -/
def searchWithScoresSt (dist : Vec → Vec → ℚ) (st : List Entry) (qv : Vec)
    (k : ℕ) : List (String × ℚ × Tool) × List Entry :=
  (searchWithScores dist st qv k, st)

/-- Model of `_retrieve_sparse_scores` as a state-passing read (it reads `self.bm25`
and `store.get_all()`). -/
def retrieveSparseScoresSt (bm25Scores : List (List String) → List String → List ℚ)
    (s : RAGState) (query : String) : List (String × ℚ) × RAGState :=
  (retrieveSparseScores bm25Scores s query, s)

/-- Model of `ToolsRAG.retrieve_hybrid` with the shared state threaded through the
store and index accesses in program order. -/
def retrieveHybridSt (embed : String → Vec) (dist : Vec → Vec → ℚ)
    (bm25Scores : List (List String) → List String → List ℚ)
    (cfg : ToolsRAGConfig) (s : RAGState) (query : String)
    (kArg : Option ℕ) (alphaArg : Option ℚ) (thresholdArg : Option ℚ) :
    Option (List CleanTool × List String) × RAGState :=
  if !cfg.filterTools then (none, s)
  else
    let k := kArg.getD cfg.topK
    let alpha := alphaArg.getD cfg.alpha
    let threshold := thresholdArg.getD cfg.threshold
    let qv := embed query
    let dq := searchWithScoresSt dist s.store qv k
    let s1 : RAGState := { s with store := dq.2 }
    let dres := dq.1
    let denseIds := dres.map (fun r => r.1)
    let dScores := denseRankScores denseIds k
    let simL := dres.map (fun r => (r.1, r.2.1))
    let metaL := dres.map (fun r => (r.1, r.2.2))
    let sp := retrieveSparseScoresSt bm25Scores s1 query
    let s2 := sp.2
    let sScores := sp.1
    let sparseIds := topIds sScores k
    let fused := fusedScores alpha dScores sScores (unionIds denseIds sparseIds)
    let final := topIds fused k
    let res := filterLoop simL metaL threshold final
    (some (res.1, sortStrings res.2), s2)

/-- Tools component of a retrieval result (empty for the sentinel). -/
def toolsOf : Option (List CleanTool × List String) → List CleanTool
  | none => []
  | some p => p.1

/- ### Alternate selector (src/tools_rag/skills.py) -/

/-- Model of `ToolsSkills._group_by_server`: group tools by server (default bucket
`"default"`), popping the `server` key from each tool; the result is a
mapping (insertion-ordered, as a Python dict) from server name to tools. -/
def addToGroup (acc : List (String × List CleanTool)) (srv : String)
    (t : CleanTool) : List (String × List CleanTool) :=
  if acc.any (fun p => p.1 == srv) then
    acc.map (fun p => if p.1 == srv then (p.1, p.2 ++ [t]) else p)
  else
    acc ++ [(srv, [t])]

/-- Model of `ToolsSkills._group_by_server` over a tool list. -/
def groupByServer (toolsL : List Tool) : List (String × List CleanTool) :=
  toolsL.foldl (fun acc tool => addToGroup acc (tool.server.getD "default") tool.strip) []

/-- Model of `ToolsSkills.retrieve_skills`. The catalog is the insertion-ordered
`tools_by_name` dictionary; the LLM is the external oracle `llm` returning
selected tool names, validated against the catalog. `none` models the
`None` sentinel for `filter_tools=False`. -/
def retrieveSkills (llm : String → List String) (catalog : List (String × Tool))
    (query : String) (k : ℕ) (filterT : Bool) :
    Option (List (String × List CleanTool)) :=
  if !filterT then none
  else if catalog.isEmpty then some []
  else if catalog.length ≤ k then some (groupByServer (catalog.map Prod.snd))
  else
    some (groupByServer ((llm query).filterMap (fun n => catalog.lookup n)))


/- ### A concrete two-tool scenario used by witnesses and counterexamples -/

/-- Concrete tool on server `s1`. -/
def toolA : Tool := ⟨"alpha", "x", "", some "s1"⟩

/-- Concrete tool on server `s2`. -/
def toolB : Tool := ⟨"beta", "y", "", some "s2"⟩

/-- Concrete embedding oracle: the character count of the text. -/
def embedC : String → Vec := fun s => [(s.data.length : ℚ)]

/-- Concrete cosine-distance oracle: distance `0` to the embedding of
`"alpha x"` (length 7), `1/4` to the embedding of `"beta y"` (length 6),
`1` otherwise. -/
def distC : Vec → Vec → ℚ := fun _ v =>
  if v = [(7 : ℚ)] then 0 else if v = [(6 : ℚ)] then 1 / 4 else 1

/-- Concrete raw BM25 oracle: a document scores the number of query tokens
it contains (nonnegative, like rank_bm25 scores under its idf floor). -/
def bmC : List (List String) → List String → List ℚ := fun corpus qtoks =>
  corpus.map (fun d => ((qtoks.filter (fun t => d.contains t)).length : ℚ))

/-- Concrete configuration with filtering enabled. -/
def cfgE : ToolsRAGConfig :=
  ⟨"sentence-transformers/all-mpnet-base-v2", 8 / 10, 10, 1 / 100, true⟩

/-- Concrete configuration with filtering disabled. -/
def cfgOff : ToolsRAGConfig :=
  ⟨"sentence-transformers/all-mpnet-base-v2", 8 / 10, 10, 1 / 100, false⟩

/-- Concrete two-tool catalog state, obtained by populating an empty
instance with `toolA` and `toolB`. -/
def sE : RAGState := populateTools embedC ⟨[], none⟩ [toolA, toolB]

/-- The same two-tool catalog as the alternate selector's dictionary. -/
def catalogE : List (String × Tool) := [("alpha", toolA), ("beta", toolB)]

/-- Concrete LLM oracle for the alternate selector (never consulted on the
small-catalog path). -/
def llmC : String → List String := fun _ => ["alpha"]

/- ### Generic lemmas about the helper functions -/

theorem mem_insertBy (le : α → α → Bool) (x : α) (l : List α) (a : α) :
    a ∈ insertBy le x l ↔ a = x ∨ a ∈ l := by
  induction l with
  | nil => simp [insertBy]
  | cons y ys ih =>
    simp only [insertBy]
    cases h : le x y
    · simp only [Bool.false_eq_true, if_false, List.mem_cons, ih]
      tauto
    · simp only [if_true, List.mem_cons]
      try tauto

theorem insertBy_perm (le : α → α → Bool) (x : α) (l : List α) :
    List.Perm (insertBy le x l) (x :: l) := by
  induction l with
  | nil => simp [insertBy]
  | cons y ys ih =>
    simp only [insertBy]
    by_cases h : le x y
    · simp [h]
    · simpa [h] using (ih.cons y).trans (List.Perm.swap x y ys)

theorem pySorted_perm (le : α → α → Bool) (l : List α) :
    List.Perm (pySorted le l) l := by
  induction l with
  | nil => simp [pySorted]
  | cons x xs ih => exact (insertBy_perm le x (pySorted le xs)).trans (ih.cons x)

theorem length_pySorted (le : α → α → Bool) (l : List α) :
    (pySorted le l).length = l.length :=
  (pySorted_perm le l).length_eq

theorem pairwise_insertBy (le : α → α → Bool)
    (htot : ∀ a b, le a b = true ∨ le b a = true)
    (htr : ∀ a b c, le a b = true → le b c = true → le a c = true)
    (x : α) (l : List α) (hl : l.Pairwise (fun a b => le a b = true)) :
    (insertBy le x l).Pairwise (fun a b => le a b = true) := by
  induction l with
  | nil => simp [insertBy]
  | cons y ys ih =>
    rcases List.pairwise_cons.mp hl with ⟨hy, hys⟩
    simp only [insertBy]
    cases h : le x y
    · simp only [Bool.false_eq_true, if_false]
      refine List.pairwise_cons.mpr ⟨?_, ih hys⟩
      intro b hb
      rcases (mem_insertBy le x ys b).mp hb with hb | hb
      · rcases htot x y with h1 | h1
        · rw [h1] at h; cases h
        · exact hb ▸ h1
      · exact hy b hb
    · simp only [if_true]
      refine List.pairwise_cons.mpr ⟨?_, hl⟩
      intro b hb
      rcases List.mem_cons.mp hb with hb | hb
      · exact hb ▸ h
      · exact htr x y b h (hy b hb)

theorem pairwise_pySorted (le : α → α → Bool)
    (htot : ∀ a b, le a b = true ∨ le b a = true)
    (htr : ∀ a b c, le a b = true → le b c = true → le a c = true)
    (l : List α) : (pySorted le l).Pairwise (fun a b => le a b = true) := by
  induction l with
  | nil => simp [pySorted]
  | cons x xs ih => exact pairwise_insertBy le htot htr x (pySorted le xs) ih

theorem foldl_max_le_init (l : List ℚ) : ∀ acc : ℚ, acc ≤ l.foldl max acc := by
  induction l with
  | nil => intro acc; simp
  | cons z zs ih =>
    intro acc
    exact le_trans (le_max_left acc z) (ih (max acc z))

theorem mem_le_foldl_max (l : List ℚ) (x : ℚ) :
    ∀ acc : ℚ, x ∈ l → x ≤ l.foldl max acc := by
  induction l with
  | nil => intro acc h; cases h
  | cons z zs ih =>
    intro acc h
    rcases List.mem_cons.mp h with h | h
    · subst h
      exact le_trans (le_max_right acc x) (foldl_max_le_init zs (max acc x))
    · exact ih (max acc z) h

theorem le_pyMax (l : List ℚ) (x : ℚ) (h : x ∈ l) : x ≤ pyMax l := by
  cases l with
  | nil => cases h
  | cons y ys =>
    rcases List.mem_cons.mp h with h | h
    · subst h; exact foldl_max_le_init ys x
    · exact mem_le_foldl_max ys x y h

theorem lookup_map_self (ids : List String) (f : String → β) (n : String) :
    (ids.map (fun t => (t, f t))).lookup n =
      if n ∈ ids then some (f n) else none := by
  induction ids with
  | nil => simp [List.lookup]
  | cons a rest ih =>
    simp only [List.map_cons, List.lookup]
    by_cases h : n = a
    · subst h; simp
    · have hbeq : (n == a) = false := beq_eq_false_iff_ne.mpr h
      simp [hbeq, ih, h]

theorem lookup_map_pair (l : List (String × γ)) (g : String × γ → β) (n : String) :
    (l.map (fun r => (r.1, g r))).lookup n =
      (l.find? (fun r => r.1 == n)).map g := by
  induction l with
  | nil => simp [List.lookup]
  | cons a rest ih =>
    simp only [List.map_cons, List.lookup, List.find?]
    by_cases h : n = a.1
    · subst h
      simp
    · have hbeq : (n == a.1) = false := beq_eq_false_iff_ne.mpr h
      have hbeq2 : (a.1 == n) = false := beq_eq_false_iff_ne.mpr (fun hh => h hh.symm)
      simp [hbeq, hbeq2, ih]

theorem lookup_eq_none_of_not_mem_keys (l : List (String × β)) (n : String)
    (h : n ∉ l.map (fun r => r.1)) : l.lookup n = none := by
  induction l with
  | nil => simp [List.lookup]
  | cons a rest ih =>
    simp only [List.map_cons, List.mem_cons] at h
    push_neg at h
    have hbeq : (n == a.1) = false := beq_eq_false_iff_ne.mpr h.1
    simp only [List.lookup, hbeq]
    exact ih h.2

/- ### Lemmas about the threshold filter loop -/

/-- The decision made by one filter iteration for candidate `name`:
`some cleanedTool` when the candidate is kept, `none` otherwise. -/
def filterPick (simL : List (String × ℚ)) (metaL : List (String × Tool))
    (threshold : ℚ) (name : String) : Option CleanTool :=
  if threshold ≤ (simL.lookup name).getD 0 then
    (metaL.lookup name).map Tool.strip
  else none

theorem filterStep_fst (simL : List (String × ℚ)) (metaL : List (String × Tool))
    (threshold : ℚ) (acc : List CleanTool × List String) (name : String) :
    (filterStep simL metaL threshold acc name).1 =
      acc.1 ++ (filterPick simL metaL threshold name).toList := by
  simp only [filterStep, filterPick]
  by_cases h : threshold ≤ (simL.lookup name).getD 0
  · simp only [h, if_true]
    cases metaL.lookup name with
    | none => simp
    | some tool => simp
  · simp [h]

theorem foldl_filterStep_fst (simL : List (String × ℚ)) (metaL : List (String × Tool))
    (threshold : ℚ) (final : List String) :
    ∀ acc : List CleanTool × List String,
      (final.foldl (filterStep simL metaL threshold) acc).1 =
        acc.1 ++ final.filterMap (filterPick simL metaL threshold) := by
  induction final with
  | nil => intro acc; simp
  | cons n rest ih =>
    intro acc
    simp only [List.foldl_cons, List.filterMap_cons]
    rw [ih]
    cases hp : filterPick simL metaL threshold n with
    | none =>
      have : (filterStep simL metaL threshold acc n).1 = acc.1 := by
        rw [filterStep_fst, hp]; simp
      rw [this]
    | some t =>
      have : (filterStep simL metaL threshold acc n).1 = acc.1 ++ [t] := by
        rw [filterStep_fst, hp]; simp
      rw [this]
      simp

theorem filterLoop_fst (simL : List (String × ℚ)) (metaL : List (String × Tool))
    (threshold : ℚ) (final : List String) :
    (filterLoop simL metaL threshold final).1 =
      final.filterMap (filterPick simL metaL threshold) := by
  simpa using foldl_filterStep_fst simL metaL threshold final ([], [])

theorem length_filterMap_mono (p q : α → Option β) (l : List α)
    (h : ∀ a, (p a).isSome = true → (q a).isSome = true) :
    (l.filterMap p).length ≤ (l.filterMap q).length := by
  induction l with
  | nil => simp
  | cons x xs ih =>
    simp only [List.filterMap_cons]
    cases hp : p x with
    | none =>
      cases hq : q x with
      | none => exact ih
      | some b => simpa using Nat.le_succ_of_le ih
    | some b =>
      have := h x (by simp [hp])
      cases hq : q x with
      | none => rw [hq] at this; simp at this
      | some c => simpa using Nat.succ_le_succ ih

/- ### Lemmas about the rank-decay scores -/

theorem lookup_rankScoresFrom (k : ℕ) (ids : List String) (hnd : ids.Nodup) :
    ∀ (start i : ℕ) (h : i < ids.length),
      (rankScoresFrom k start ids).lookup (ids.get ⟨i, h⟩) =
        some (1 - ((start + i : ℕ) : ℚ) / (k : ℚ)) := by
  induction ids with
  | nil => intro start i h; cases h
  | cons a rest ih =>
    intro start i h
    rcases List.nodup_cons.mp hnd with ⟨hna, hrest⟩
    cases i with
    | zero =>
      simp [rankScoresFrom, List.lookup]
    | succ j =>
      have hj : j < rest.length := Nat.lt_of_succ_lt_succ h
      have hmem : rest.get ⟨j, hj⟩ ∈ rest := rest.get_mem j hj
      have hne : (rest.get ⟨j, hj⟩ == a) = false :=
        beq_eq_false_iff_ne.mpr (fun hh => hna (hh ▸ hmem))
      have hget : (a :: rest).get ⟨j + 1, h⟩ = rest.get ⟨j, hj⟩ := rfl
      rw [hget]
      simp only [rankScoresFrom, List.lookup, hne]
      rw [ih hrest (start + 1) j hj]
      have harith : start + 1 + j = start + (j + 1) := by omega
      rw [harith]

/- ### Lemmas about the store upsert -/

theorem upsertOne_map_fun_idem (e : Entry) (x : Entry) :
    (fun y : Entry => if y.id == e.id then e else y)
      ((fun y : Entry => if y.id == e.id then e else y) x) =
      (fun y : Entry => if y.id == e.id then e else y) x := by
  by_cases h : x.id == e.id
  · simp [h]
  · simp [h]

theorem any_upsertOne (st : List Entry) (e : Entry) :
    (upsertOne st e).any (fun x => x.id == e.id) = true := by
  unfold upsertOne
  cases hany : st.any (fun x => x.id == e.id) with
  | false =>
    simp only [Bool.false_eq_true, if_false, List.any_append]
    simp
  | true =>
    simp only [if_true]
    rcases List.any_eq_true.mp hany with ⟨x, hx, hxe⟩
    refine List.any_eq_true.mpr ⟨e, ?_, by simp⟩
    refine List.mem_map.mpr ⟨x, hx, ?_⟩
    simp [hxe]

theorem upsertOne_twice (st : List Entry) (e : Entry) :
    upsertOne (upsertOne st e) e = upsertOne st e := by
  have hany := any_upsertOne st e
  unfold upsertOne
  cases hst : st.any (fun x => x.id == e.id) with
  | true =>
    simp only [hst, if_true]
    have h1 : (st.map (fun y : Entry => if y.id == e.id then e else y)).any
        (fun x => x.id == e.id) = true := by
      have := any_upsertOne st e
      unfold upsertOne at this
      simpa [hst] using this
    rw [if_pos h1, List.map_map]
    congr 1
    funext x
    exact upsertOne_map_fun_idem e x
  | false =>
    simp only [hst, Bool.false_eq_true, if_false]
    have h1 : (st ++ [e]).any (fun x => x.id == e.id) = true := by
      have := any_upsertOne st e
      unfold upsertOne at this
      simp only [hst, Bool.false_eq_true, if_false] at this
      exact this
    rw [if_pos h1, List.map_append]
    have hnone : ∀ x ∈ st, (x.id == e.id) = false := by
      intro x hx
      exact Bool.eq_false_iff.mpr (List.any_eq_false.mp hst x hx)
    have h2 : st.map (fun y : Entry => if y.id == e.id then e else y) = st := by
      have := List.map_congr_left (l := st)
        (f := fun y : Entry => if y.id == e.id then e else y) (g := id)
        (fun x hx => by simp [hnone x hx])
      simpa using this
    rw [h2]
    simp

theorem find?_map_upsert (st : List Entry) (e : Entry)
    (h : st.any (fun x => x.id == e.id) = true) :
    (st.map (fun y : Entry => if y.id == e.id then e else y)).find?
      (fun x => x.id == e.id) = some e := by
  induction st with
  | nil => simp at h
  | cons x xs ih =>
    simp only [List.map_cons, List.find?]
    cases hx : x.id == e.id with
    | true =>
      simp only [if_true]
      have : (e.id == e.id) = true := by simp
      simp [this]
    | false =>
      simp only [Bool.false_eq_true, if_false, hx]
      have hxs : xs.any (fun x => x.id == e.id) = true := by
        simp only [List.any_cons, hx, Bool.false_or] at h
        exact h
      exact ih hxs

theorem find?_append_single (st : List Entry) (e : Entry)
    (h : st.any (fun x => x.id == e.id) = false) :
    (st ++ [e]).find? (fun x => x.id == e.id) = some e := by
  induction st with
  | nil => simp
  | cons x xs ih =>
    simp only [List.any_cons, Bool.or_eq_false_iff] at h
    simp only [List.cons_append, List.find?, h.1]
    exact ih h.2

theorem find?_upsertOne (st : List Entry) (e : Entry) :
    (upsertOne st e).find? (fun x => x.id == e.id) = some e := by
  unfold upsertOne
  cases hst : st.any (fun x => x.id == e.id) with
  | true => simpa using find?_map_upsert st e hst
  | false =>
    simp only [Bool.false_eq_true, if_false]
    exact find?_append_single st e hst

theorem length_upsertOne (st : List Entry) (e : Entry) :
    (upsertOne st e).length =
      if st.any (fun x => x.id == e.id) then st.length else st.length + 1 := by
  unfold upsertOne
  cases hst : st.any (fun x => x.id == e.id) with
  | true => simp
  | false => simp

/- ### Lemma about the index rebuild -/

theorem corpusSize_rebuildBM25 (st : List Entry) :
    corpusSize (rebuildBM25 st) = st.length := by
  unfold rebuildBM25 corpusSize storeDocs
  cases st with
  | nil => simp
  | cons e rest => simp

/- ### Claim theorems -/

/-- C7: `populate_tools` and `add_tools` are observationally equivalent: for
every starting catalog state and record list they perform the same
non-clearing upsert and leave identical catalog and ranker state, and both
set the sparse index to a full rebuild from the resulting store. -/
theorem populate_add_tools_equiv (embed : String → Vec) (s : RAGState)
    (ts : List Tool) :
    populateTools embed s ts = addTools embed s ts ∧
    (populateTools embed s ts).bm25 = rebuildBM25 (populateTools embed s ts).store ∧
    (addTools embed s ts).bm25 = rebuildBM25 (addTools embed s ts).store :=
  ⟨rfl, rfl, rfl⟩

/-- C5: after each mutation (`populate_tools`, `add_tools`, `remove_tools`)
the sparse corpus size equals the number of records in a full scan of the
catalog store: the ranker is rebuilt from exactly the current contents. -/
theorem mutation_rebuild_consistency (embed : String → Vec) (s : RAGState)
    (ts : List Tool) (names : List String) :
    corpusSize (populateTools embed s ts).bm25 =
      (populateTools embed s ts).store.length ∧
    corpusSize (addTools embed s ts).bm25 = (addTools embed s ts).store.length ∧
    corpusSize (removeTools s names).bm25 = (removeTools s names).store.length :=
  ⟨corpusSize_rebuildBM25 _, corpusSize_rebuildBM25 _, corpusSize_rebuildBM25 _⟩

/-- C9: when the configuration disables filtering, `retrieve_hybrid`
returns the use-the-full-catalog sentinel `(None, None)` without touching
the catalog: the result is the sentinel and is independent of the catalog
state and the query. -/
theorem filtering_disabled_sentinel (embed : String → Vec) (dist : Vec → Vec → ℚ)
    (bmS : List (List String) → List String → List ℚ) (cfg : ToolsRAGConfig)
    (s : RAGState) (q : String) (kArg : Option ℕ) (aArg : Option ℚ)
    (tArg : Option ℚ) (hf : cfg.filterTools = false) :
    retrieveHybrid embed dist bmS cfg s q kArg aArg tArg = none ∧
    ∀ (s2 : RAGState) (q2 : String),
      retrieveHybrid embed dist bmS cfg s q kArg aArg tArg =
        retrieveHybrid embed dist bmS cfg s2 q2 kArg aArg tArg := by
  constructor
  · simp [retrieveHybrid, hf]
  · intro s2 q2
    simp [retrieveHybrid, hf]

/-- Witness for C9 at a concrete disabled configuration. -/
theorem filtering_disabled_sentinel_witness :
    cfgOff.filterTools = false ∧
    retrieveHybrid embedC distC bmC cfgOff sE "beta" none none none = none :=
  ⟨rfl, (filtering_disabled_sentinel embedC distC bmC cfgOff sE "beta"
    none none none rfl).1⟩

/-- C10: `retrieve_hybrid` is read-only: the state-threaded rendering of
the call returns exactly the pure result together with the unchanged state,
so the catalog store (ids, documents, embeddings, stored metadata) and the
sparse index are identical before and after the call; the `server` key is
popped only from the per-call decoded copies, never from stored records. -/
theorem retrieve_hybrid_read_only (embed : String → Vec) (dist : Vec → Vec → ℚ)
    (bmS : List (List String) → List String → List ℚ) (cfg : ToolsRAGConfig)
    (s : RAGState) (q : String) (kArg : Option ℕ) (aArg : Option ℚ)
    (tArg : Option ℚ) :
    retrieveHybridSt embed dist bmS cfg s q kArg aArg tArg =
      (retrieveHybrid embed dist bmS cfg s q kArg aArg tArg, s) ∧
    (retrieveHybridSt embed dist bmS cfg s q kArg aArg tArg).2.store = s.store ∧
    (retrieveHybridSt embed dist bmS cfg s q kArg aArg tArg).2.bm25 = s.bm25 := by
  refine ⟨?_, ?_, ?_⟩ <;>
    cases hf : cfg.filterTools <;>
      simp [retrieveHybridSt, retrieveHybrid, searchWithScoresSt,
        retrieveSparseScoresSt, hf]

/-- C3: re-adding the same record is idempotent (same catalog state, hence
same size and content), a record whose name already exists overwrites the
stored record by name without changing the catalog size, and a new name
appends one record; the operation is total (no error on duplicates). -/
theorem add_tools_upsert_idempotent (embed : String → Vec) (s : RAGState)
    (r : Tool) :
    addTools embed (addTools embed s [r]) [r] = addTools embed s [r] ∧
    (addTools embed s [r]).store.length =
      (if s.store.any (fun x => x.id == r.name) then s.store.length
        else s.store.length + 1) ∧
    (addTools embed s [r]).store.find? (fun x => x.id == r.name) =
      some (mkEntry embed r) := by
  refine ⟨?_, ?_, ?_⟩
  · have h1 : storeAdd (storeAdd s.store [mkEntry embed r]) [mkEntry embed r] =
        storeAdd s.store [mkEntry embed r] :=
      upsertOne_twice s.store (mkEntry embed r)
    simp only [addTools, List.map_cons, List.map_nil]
    rw [h1]
  · exact length_upsertOne s.store (mkEntry embed r)
  · exact find?_upsertOne s.store (mkEntry embed r)

/-- Helper for C6: raising the threshold can only turn kept candidates into
discarded ones. -/
theorem filterPick_isSome_mono (simL : List (String × ℚ))
    (metaL : List (String × Tool)) (t1 t2 : ℚ) (h12 : t1 ≤ t2) (n : String)
    (h : (filterPick simL metaL t2 n).isSome = true) :
    (filterPick simL metaL t1 n).isSome = true := by
  unfold filterPick at h ⊢
  by_cases h2 : t2 ≤ (simL.lookup n).getD 0
  · rw [if_pos (le_trans h12 h2)]
    rwa [if_pos h2] at h
  · rw [if_neg h2] at h
    simp at h

/-- C6: for a fixed catalog state, query, k and alpha, the number of tools
in the filtered result of `retrieve_hybrid` is non-increasing in the
threshold. -/
theorem threshold_monotone (embed : String → Vec) (dist : Vec → Vec → ℚ)
    (bmS : List (List String) → List String → List ℚ) (cfg : ToolsRAGConfig)
    (s : RAGState) (q : String) (kArg : Option ℕ) (aArg : Option ℚ)
    (t1 t2 : ℚ) (h12 : t1 ≤ t2) :
    (toolsOf (retrieveHybrid embed dist bmS cfg s q kArg aArg (some t2))).length ≤
      (toolsOf (retrieveHybrid embed dist bmS cfg s q kArg aArg (some t1))).length := by
  cases hf : cfg.filterTools with
  | false => simp [retrieveHybrid, hf, toolsOf]
  | true =>
    simp only [retrieveHybrid, hf, Bool.not_true, Bool.false_eq_true, if_false,
      Option.getD_some, toolsOf]
    rw [filterLoop_fst, filterLoop_fst]
    exact length_filterMap_mono _ _ _
      (fun n => filterPick_isSome_mono _ _ t1 t2 h12 n)

/-- Witness for C6 at concrete thresholds 0 and 1. -/
theorem threshold_monotone_witness :
    (0 : ℚ) ≤ 1 ∧
    (toolsOf (retrieveHybrid embedC distC bmC cfgE sE "beta" (some 1) (some 1)
        (some 1))).length ≤
      (toolsOf (retrieveHybrid embedC distC bmC cfgE sE "beta" (some 1) (some 1)
        (some 0))).length :=
  ⟨by decide, threshold_monotone embedC distC bmC cfgE sE "beta" (some 1)
    (some 1) 0 1 (by decide)⟩

/-- The normalization denominator is always positive (so the division in
the sparse normalization is never by zero). -/
theorem normDenom_pos (raw : List ℚ) : 0 < normDenom raw := by
  unfold normDenom
  by_cases h : 0 < pyMax raw
  · rwa [if_pos h]
  · rw [if_neg h]
    norm_num

/-- Every nonnegative member of the raw score list is bounded by the
normalization denominator. -/
theorem le_normDenom_of_mem (raw : List ℚ) (x : ℚ) (hx : x ∈ raw) :
    x ≤ normDenom raw := by
  unfold normDenom
  by_cases h : 0 < pyMax raw
  · rw [if_pos h]
    exact le_pyMax raw x hx
  · rw [if_neg h]
    have h1 := le_pyMax raw x hx
    have h2 : pyMax raw ≤ 0 := not_lt.mp h
    linarith

/-- C8: sparse-score normalization divides every raw BM25 score by the
maximum raw score when that maximum is positive and by 1 otherwise (the
denominator is always positive, so division by zero is impossible); for
nonnegative raw scores (as produced by rank_bm25) the normalized scores lie
in `[0,1]` and the relative order of raw scores is preserved; with no index
(empty corpus) the score function returns the empty mapping. -/
theorem sparse_normalization (bmS : List (List String) → List String → List ℚ)
    (s : RAGState) (q : String)
    (hnn : ∀ x ∈ rawSparse bmS s q, 0 ≤ x) :
    (s.bm25 = none → retrieveSparseScores bmS s q = []) ∧
    retrieveSparseScores bmS s q =
      ((storeIds s.store).zip (rawSparse bmS s q)).map
        (fun p => (p.1, p.2 / normDenom (rawSparse bmS s q))) ∧
    0 < normDenom (rawSparse bmS s q) ∧
    (∀ p ∈ retrieveSparseScores bmS s q, 0 ≤ p.2 ∧ p.2 ≤ 1) ∧
    (∀ x y, x ∈ rawSparse bmS s q → y ∈ rawSparse bmS s q →
      (x ≤ y ↔ x / normDenom (rawSparse bmS s q) ≤ y / normDenom (rawSparse bmS s q))) := by
  have heq : retrieveSparseScores bmS s q =
      ((storeIds s.store).zip (rawSparse bmS s q)).map
        (fun p => (p.1, p.2 / normDenom (rawSparse bmS s q))) := by
    cases hb : s.bm25 with
    | none => simp [retrieveSparseScores, rawSparse, hb]
    | some corpus => simp [retrieveSparseScores, rawSparse, normDenom, hb]
  refine ⟨?_, heq, normDenom_pos _, ?_, ?_⟩
  · intro hb
    simp [retrieveSparseScores, hb]
  · intro p hp
    rw [heq] at hp
    rcases List.mem_map.mp hp with ⟨q0, hq0, hpq⟩
    have hraw : q0.2 ∈ rawSparse bmS s q := by
      have := List.of_mem_zip (by exact hq0)
      exact this.2
    have hx : 0 ≤ q0.2 := hnn q0.2 hraw
    have hle : q0.2 ≤ normDenom (rawSparse bmS s q) :=
      le_normDenom_of_mem _ _ hraw
    subst hpq
    constructor
    · exact div_nonneg hx (le_of_lt (normDenom_pos _))
    · exact (div_le_one (normDenom_pos _)).mpr hle
  · intro x y hx hy
    exact (div_le_div_iff_of_pos_right (normDenom_pos _)).symm

/-- Witness for C8 at the concrete two-tool state and query `"beta"`. -/
theorem sparse_normalization_witness :
    (∀ x ∈ rawSparse bmC sE "beta", 0 ≤ x) ∧
    ((sE.bm25 = none → retrieveSparseScores bmC sE "beta" = []) ∧
    retrieveSparseScores bmC sE "beta" =
      ((storeIds sE.store).zip (rawSparse bmC sE "beta")).map
        (fun p => (p.1, p.2 / normDenom (rawSparse bmC sE "beta"))) ∧
    0 < normDenom (rawSparse bmC sE "beta") ∧
    (∀ p ∈ retrieveSparseScores bmC sE "beta", 0 ≤ p.2 ∧ p.2 ≤ 1) ∧
    (∀ x y, x ∈ rawSparse bmC sE "beta" → y ∈ rawSparse bmC sE "beta" →
      (x ≤ y ↔ x / normDenom (rawSparse bmC sE "beta") ≤
        y / normDenom (rawSparse bmC sE "beta")))) :=
  ⟨by with_unfolding_all decide,
    sparse_normalization bmC sE "beta" (by with_unfolding_all decide)⟩

/-- C1 (amended): the threshold filter of `retrieve_hybrid` compares each
final candidate's recorded dense cosine similarity (from the k-NN search,
not the fused or rank-decay score) against the threshold, and also requires
recorded catalog metadata, which only dense candidates have. Hence every
returned tool arises from a dense candidate whose recorded similarity
reaches the threshold; a candidate present only in the sparse top-k never
appears in the filtered output, for every threshold value, including
`threshold = 0`. -/
theorem filter_uses_recorded_dense_similarity (embed : String → Vec)
    (dist : Vec → Vec → ℚ) (bmS : List (List String) → List String → List ℚ)
    (cfg : ToolsRAGConfig) (s : RAGState) (q : String) (kArg : Option ℕ)
    (aArg : Option ℚ) (tArg : Option ℚ) (t : CleanTool)
    (ht : t ∈ toolsOf (retrieveHybrid embed dist bmS cfg s q kArg aArg tArg)) :
    ∃ r ∈ searchWithScores dist s.store (embed q) (kArg.getD cfg.topK),
      t = Tool.strip r.2.2 ∧ tArg.getD cfg.threshold ≤ r.2.1 := by
  cases hf : cfg.filterTools with
  | false => simp [retrieveHybrid, hf, toolsOf] at ht
  | true =>
    simp only [retrieveHybrid, hf, Bool.not_true, Bool.false_eq_true, if_false,
      toolsOf] at ht
    rw [filterLoop_fst] at ht
    rcases List.mem_filterMap.mp ht with ⟨n, hn, hpick⟩
    unfold filterPick at hpick
    by_cases hth : tArg.getD cfg.threshold ≤
        ((List.map (fun r => (r.1, r.2.1))
          (searchWithScores dist s.store (embed q) (kArg.getD cfg.topK))).lookup n).getD 0
    · rw [if_pos hth] at hpick
      rw [lookup_map_pair
        (searchWithScores dist s.store (embed q) (kArg.getD cfg.topK))
        (fun r => r.2.2) n, Option.map_map] at hpick
      cases hfind : (searchWithScores dist s.store (embed q)
          (kArg.getD cfg.topK)).find? (fun r => r.1 == n) with
      | none => rw [hfind] at hpick; simp at hpick
      | some r0 =>
        rw [hfind] at hpick
        replace hpick : Tool.strip r0.2.2 = t := by simpa using hpick
        have hsim : (List.map (fun r => (r.1, r.2.1))
            (searchWithScores dist s.store (embed q) (kArg.getD cfg.topK))).lookup n =
            some r0.2.1 := by
          rw [lookup_map_pair
            (searchWithScores dist s.store (embed q) (kArg.getD cfg.topK))
            (fun r => r.2.1) n, hfind]
          rfl
        rw [hsim] at hth
        exact ⟨r0, List.mem_of_find?_eq_some hfind, hpick.symm, by simpa using hth⟩
    · rw [if_neg hth] at hpick
      simp at hpick

/-- Witness for C1 (amended) at a concrete input whose output is
non-empty. -/
theorem filter_uses_recorded_dense_similarity_witness :
    toolA.strip ∈ toolsOf (retrieveHybrid embedC distC bmC cfgE sE "beta"
      (some 1) (some 1) (some 0)) ∧
    (∃ r ∈ searchWithScores distC sE.store (embedC "beta")
        ((some 1).getD cfgE.topK),
      toolA.strip = Tool.strip r.2.2 ∧
        (some (0 : ℚ)).getD cfgE.threshold ≤ r.2.1) :=
  ⟨by with_unfolding_all decide,
    filter_uses_recorded_dense_similarity embedC distC bmC cfgE sE "beta"
      (some 1) (some 1) (some 0) toolA.strip (by with_unfolding_all decide)⟩

/-- C1 counterexample: in the concrete two-tool state with `k = 1`,
`alpha = 0` and `threshold = 0`, the dense top-1 is `alpha` and the sparse
top-1 is `beta` (so `beta` is reachable only through the sparse ranking);
`beta` is the single final fused candidate, the threshold is `0`, and yet
the filtered output is empty: the sparse-only candidate does not survive at
`threshold = 0`, contradicting the claim that it survives exactly then. -/
theorem sparse_only_candidate_dropped_at_zero_threshold :
    (searchWithScores distC sE.store (embedC "beta") 1).map (fun r => r.1) =
      ["alpha"] ∧
    topIds (retrieveSparseScores bmC sE "beta") 1 = ["beta"] ∧
    topIds (fusedScores 0 (denseRankScores ["alpha"] 1)
      (retrieveSparseScores bmC sE "beta") (unionIds ["alpha"] ["beta"])) 1 =
      ["beta"] ∧
    retrieveHybrid embedC distC bmC cfgE sE "beta" (some 1) (some 0) (some 0) =
      some ([], []) := by
  with_unfolding_all decide

/-- C4 (code divergence, cf. the repository's own tests): on the same
two-tool catalog, `retrieve_hybrid` returns a tuple of a flat tool list
(with `server` removed) and a sorted server-name list, while the alternate
selector `retrieve_skills` returns a mapping from server name to its tools;
the two retrieval strategies do not return results in an identical
namespace-keyed shape. -/
theorem hybrid_and_skills_shapes_diverge :
    retrieveHybrid embedC distC bmC cfgE sE "beta" (some 2) (some (1 / 2))
      (some 0) = some ([toolB.strip, toolA.strip], ["s1", "s2"]) ∧
    retrieveSkills llmC catalogE "beta" 2 true =
      some [("s1", [toolA.strip]), ("s2", [toolB.strip])] := by
  with_unfolding_all decide

/-- C2: the dense ranking is converted to fusion scores by linear rank
decay (`1 - i / k` for the i-th dense candidate), the candidate union
consists of the ids in either top-k with missing components defaulting to
0, each union member's fused score is
`alpha * dense_score + (1 - alpha) * sparse_score`, and the final candidate
list is the top-k of the union ordered by fused score descending. -/
theorem fusion_pipeline_spec (denseIds sparseIds : List String)
    (sScores : List (String × ℚ)) (alpha : ℚ) (k : ℕ) (hd : denseIds.Nodup) :
    (∀ (i : ℕ) (h : i < denseIds.length),
      (denseRankScores denseIds k).lookup (denseIds.get ⟨i, h⟩) =
        some (1 - (i : ℚ) / (k : ℚ))) ∧
    (∀ n, n ∈ unionIds denseIds sparseIds ↔ (n ∈ denseIds ∨ n ∈ sparseIds)) ∧
    (∀ n, n ∈ unionIds denseIds sparseIds →
      (fusedScores alpha (denseRankScores denseIds k) sScores
          (unionIds denseIds sparseIds)).lookup n =
        some (alpha * (((denseRankScores denseIds k).lookup n).getD 0) +
          (1 - alpha) * ((sScores.lookup n).getD 0))) ∧
    (topIds (fusedScores alpha (denseRankScores denseIds k) sScores
        (unionIds denseIds sparseIds)) k).length =
      min k (unionIds denseIds sparseIds).length ∧
    topIds (fusedScores alpha (denseRankScores denseIds k) sScores
        (unionIds denseIds sparseIds)) k =
      ((sortByScoreDesc (fusedScores alpha (denseRankScores denseIds k) sScores
        (unionIds denseIds sparseIds))).take k).map Prod.fst ∧
    (sortByScoreDesc (fusedScores alpha (denseRankScores denseIds k) sScores
        (unionIds denseIds sparseIds))).Pairwise
      (fun a b : String × ℚ => b.2 ≤ a.2) ∧
    List.Perm (sortByScoreDesc (fusedScores alpha (denseRankScores denseIds k)
        sScores (unionIds denseIds sparseIds)))
      (fusedScores alpha (denseRankScores denseIds k) sScores
        (unionIds denseIds sparseIds)) ∧
    (∀ a ∈ (sortByScoreDesc (fusedScores alpha (denseRankScores denseIds k)
        sScores (unionIds denseIds sparseIds))).take k,
      ∀ b ∈ (sortByScoreDesc (fusedScores alpha (denseRankScores denseIds k)
        sScores (unionIds denseIds sparseIds))).drop k, b.2 ≤ a.2) := by
  set fl := fusedScores alpha (denseRankScores denseIds k) sScores
    (unionIds denseIds sparseIds) with hfl
  have hpair : (sortByScoreDesc fl).Pairwise (fun a b : String × ℚ => b.2 ≤ a.2) := by
    unfold sortByScoreDesc
    refine (pairwise_pySorted _ ?_ ?_ fl).imp (fun h => of_decide_eq_true h)
    · intro a b
      rcases le_total b.2 a.2 with h | h
      · exact Or.inl (decide_eq_true h)
      · exact Or.inr (decide_eq_true h)
    · intro a b c hab hbc
      exact decide_eq_true (le_trans (of_decide_eq_true hbc) (of_decide_eq_true hab))
  have hperm : List.Perm (sortByScoreDesc fl) fl := by
    unfold sortByScoreDesc
    exact pySorted_perm _ fl
  have htopk : ∀ a ∈ (sortByScoreDesc fl).take k,
      ∀ b ∈ (sortByScoreDesc fl).drop k, b.2 ≤ a.2 := by
    have h2 := hpair
    rw [← List.take_append_drop k (sortByScoreDesc fl)] at h2
    have h3 := List.pairwise_append.mp h2
    exact fun a ha b hb => h3.2.2 a ha b hb
  refine ⟨?_, ?_, ?_, ?_, ?_, hpair, hperm, htopk⟩
  · intro i h
    simpa using lookup_rankScoresFrom k denseIds hd 0 i h
  · intro n
    simp only [unionIds, List.mem_append, List.mem_filter, decide_eq_true_eq]
    tauto
  · intro n hn
    rw [hfl]
    unfold fusedScores
    rw [lookup_map_self]
    simp [hn]
  · rw [hfl]
    simp only [topIds, sortByScoreDesc, List.length_take, List.length_map,
      length_pySorted]
    unfold fusedScores
    simp
  · simp only [topIds]
    rw [List.map_take]

/-- Witness for C2 at a concrete one-dense-id, one-sparse-id instance. -/
theorem fusion_pipeline_spec_witness :
    (["alpha"] : List String).Nodup ∧
    ((∀ (i : ℕ) (h : i < (["alpha"] : List String).length),
      (denseRankScores ["alpha"] 1).lookup ((["alpha"] : List String).get ⟨i, h⟩) =
        some (1 - (i : ℚ) / (1 : ℚ))) ∧
    (∀ n, n ∈ unionIds ["alpha"] ["beta"] ↔
      (n ∈ (["alpha"] : List String) ∨ n ∈ (["beta"] : List String))) ∧
    (∀ n, n ∈ unionIds ["alpha"] ["beta"] →
      (fusedScores (1 / 2) (denseRankScores ["alpha"] 1)
          [("alpha", 0), ("beta", 1)] (unionIds ["alpha"] ["beta"])).lookup n =
        some ((1 / 2) * (((denseRankScores ["alpha"] 1).lookup n).getD 0) +
          (1 - 1 / 2) * (([("alpha", (0 : ℚ)), ("beta", 1)].lookup n).getD 0))) ∧
    (topIds (fusedScores (1 / 2) (denseRankScores ["alpha"] 1)
        [("alpha", 0), ("beta", 1)] (unionIds ["alpha"] ["beta"])) 1).length =
      min 1 (unionIds ["alpha"] ["beta"]).length ∧
    topIds (fusedScores (1 / 2) (denseRankScores ["alpha"] 1)
        [("alpha", 0), ("beta", 1)] (unionIds ["alpha"] ["beta"])) 1 =
      ((sortByScoreDesc (fusedScores (1 / 2) (denseRankScores ["alpha"] 1)
        [("alpha", 0), ("beta", 1)] (unionIds ["alpha"] ["beta"]))).take 1).map
        Prod.fst ∧
    (sortByScoreDesc (fusedScores (1 / 2) (denseRankScores ["alpha"] 1)
        [("alpha", 0), ("beta", 1)] (unionIds ["alpha"] ["beta"]))).Pairwise
      (fun a b : String × ℚ => b.2 ≤ a.2) ∧
    List.Perm (sortByScoreDesc (fusedScores (1 / 2) (denseRankScores ["alpha"] 1)
        [("alpha", 0), ("beta", 1)] (unionIds ["alpha"] ["beta"])))
      (fusedScores (1 / 2) (denseRankScores ["alpha"] 1)
        [("alpha", 0), ("beta", 1)] (unionIds ["alpha"] ["beta"])) ∧
    (∀ a ∈ (sortByScoreDesc (fusedScores (1 / 2) (denseRankScores ["alpha"] 1)
        [("alpha", 0), ("beta", 1)] (unionIds ["alpha"] ["beta"]))).take 1,
      ∀ b ∈ (sortByScoreDesc (fusedScores (1 / 2) (denseRankScores ["alpha"] 1)
        [("alpha", 0), ("beta", 1)] (unionIds ["alpha"] ["beta"]))).drop 1,
        b.2 ≤ a.2)) :=
  ⟨by decide, fusion_pipeline_spec ["alpha"] ["beta"]
    [("alpha", 0), ("beta", 1)] (1 / 2) 1 (by decide)⟩
